import Mathlib

/-!
Verification of the tree-sitter Solidity grammar (grammar.js).

The grammar is declarative: each rule denotes a language of token sequences,
and `prec.left` / `prec.right` annotations tell the GLR engine how to
disambiguate.  We embed the grammar in two layers:

* a generative layer: inductive syntax trees (expressions, type names,
  statements, declarations) whose well-formedness predicates transcribe the
  side conditions of the rules and whose serialisation functions transcribe
  the `seq`/`choice` structure; a token string is accepted by a rule iff it
  is the serialisation of a well-formed tree;
* a disambiguation layer: the operator table of `binary_expression` /
  `ternary_expression`, transcribed with its precedences and the
  associativity declared in the source (`prec.left` on every row), together
  with a precedence-climbing parser implementing tree-sitter's documented
  shift/reduce resolution (higher precedence binds tighter; on equal
  precedence a left-associative rule reduces, a right-associative one shifts);
* a lexical layer for tokens given by regular expressions (number literals,
  version numbers, comments), where `.` in a tree-sitter regex matches any
  character except a newline.
-/

namespace Solidity

/-! ## Identifier and keyword layer

`identifier: $ => /[a-zA-Z$_][a-zA-Z0-9$_]*/` together with
`word: $ => $.identifier`: tree-sitter's keyword extraction reserves the
grammar's string tokens in the positions where those tokens are expected, so
in such positions an identifier token is a word that is not one of the
grammar's keywords. -/

def isIdentStartChar (c : Char) : Bool :=
  ('a' ≤ c && c ≤ 'z') || ('A' ≤ c && c ≤ 'Z') || c = '$' || c = '_'

def isIdentChar (c : Char) : Bool :=
  isIdentStartChar c || ('0' ≤ c && c ≤ '9')

def isIdentShape (s : String) : Bool :=
  match s.toList with
  | [] => false
  | c :: t => isIdentStartChar c && t.all isIdentChar

/-- The `_int` rule of the grammar, transcribed. -/
def intTokens : List String :=
  ["int", "int8", "int16", "int24", "int32", "int40", "int48", "int56", "int64",
   "int72", "int80", "int88", "int96", "int104", "int112", "int120", "int128",
   "int136", "int144", "int152", "int160", "int168", "int176", "int184",
   "int192", "int200", "int208", "int216", "int224", "int232", "int240",
   "int248", "int256"]

/-- The `_uint` rule of the grammar, transcribed. -/
def uintTokens : List String :=
  ["uint", "uint8", "uint16", "uint24", "uint32", "uint40", "uint48", "uint56",
   "uint64", "uint72", "uint80", "uint88", "uint96", "uint104", "uint112",
   "uint120", "uint128", "uint136", "uint144", "uint152", "uint160", "uint168",
   "uint176", "uint184", "uint192", "uint200", "uint208", "uint216", "uint224",
   "uint232", "uint240", "uint248", "uint256"]

/-- The `_bytes` rule of the grammar, transcribed. -/
def bytesTokens : List String :=
  ["byte", "bytes", "bytes1", "bytes2", "bytes3", "bytes4", "bytes5", "bytes6",
   "bytes7", "bytes8", "bytes9", "bytes10", "bytes11", "bytes12", "bytes13",
   "bytes14", "bytes15", "bytes16", "bytes17", "bytes18", "bytes19", "bytes20",
   "bytes21", "bytes22", "bytes23", "bytes24", "bytes25", "bytes26", "bytes27",
   "bytes28", "bytes29", "bytes30", "bytes31", "bytes32"]

/-- The `number_unit` rule, transcribed. -/
def numberUnits : List String :=
  ["wei", "szabo", "finney", "gwei", "ether", "seconds", "minutes", "hours",
   "days", "weeks", "years"]

def isDigitChar (c : Char) : Bool := '0' ≤ c && c ≤ '9'

/-- Shape of the regex token /fixed([0-9]+)x([0-9]+)/ of the `_fixed` rule. -/
def isFixedShape (s : String) : Bool :=
  match s.toList with
  | 'f' :: 'i' :: 'x' :: 'e' :: 'd' :: rest =>
      match rest.span isDigitChar with
      | (ds, 'x' :: rest2) => !ds.isEmpty && !rest2.isEmpty && rest2.all isDigitChar
      | _ => false
  | _ => false

/-- Shape of the regex token /ufixed([0-9]+)x([0-9]+)/ of the `_ufixed` rule. -/
def isUfixedShape (s : String) : Bool :=
  match s.toList with
  | 'u' :: t => isFixedShape (String.mk t)
  | _ => false

/-- Single-token alternatives of `_primitive_type` ('address payable' is a
separate two-token form). -/
def isPrimTok (s : String) : Bool :=
  s = "address" || s = "bool" || s = "string" || s = "var" ||
  intTokens.contains s || uintTokens.contains s || bytesTokens.contains s ||
  s = "fixed" || s = "ufixed" || isFixedShape s || isUfixedShape s

/-- Every string token of the grammar that has identifier shape; keyword
extraction (via the `word` rule) prevents these from lexing as `identifier`
in positions where the keyword itself is expected. -/
def reservedWords : List String :=
  ["pragma", "solidity", "import", "as", "from",
   "abstract", "contract", "interface", "library", "is", "struct", "enum",
   "event", "anonymous", "indexed", "using", "for",
   "memory", "storage", "calldata", "if", "else", "while", "do", "continue",
   "break", "try", "returns", "catch", "return", "emit", "assembly",
   "constant", "public", "internal", "private", "external", "pure", "view",
   "payable", "immutable", "override", "modifier", "constructor", "fallback",
   "receive", "function", "virtual", "new", "delete", "type",
   "mapping", "address", "bool", "string", "var", "fixed", "ufixed",
   "true", "false", "hex", "unicode"] ++
  intTokens ++ uintTokens ++ bytesTokens ++ numberUnits

/-- An `identifier` token in a position where the grammar's keywords are also
expected: identifier shape, not one of the reserved string tokens. -/
def isIdentTok (s : String) : Bool :=
  isIdentShape s && !(reservedWords.contains s)

/-! ## Pragma directive (C10)

`pragma_directive: seq("pragma", "solidity",
repeat(_pragma_version_constraint), ";")`;
`_pragma_version_constraint: seq(optional(comparison_operator),
_solidity_version)`; `_solidity_version: /\d+(.\d+(.\d+)?)?/` (the dots are
unescaped in the source, so they match any character except a newline). -/

def versionComparators : List String := ["<=", "<", "^", ">", ">=", "~", "="]

/-- All remainders of the input after consuming one or more leading digits
(the possible matches of a \d+ group). -/
def digitSplits : List Char → List (List Char)
  | [] => []
  | c :: t => if isDigitChar c then t :: digitSplits t else []

/-- An unescaped `.` in a tree-sitter regex: any character except newline. -/
def isAnyDot (c : Char) : Bool := !(c = '\n')

/-- Whole-token match of /\d+(.\d+(.\d+)?)?/. -/
def matchesVersion (s : String) : Bool :=
  (digitSplits s.toList).any fun r1 =>
    r1.isEmpty ||
    (match r1 with
     | c :: t =>
        isAnyDot c && (digitSplits t).any fun r2 =>
          r2.isEmpty ||
          (match r2 with
           | c2 :: t2 => isAnyDot c2 && (digitSplits t2).any fun r3 => r3.isEmpty
           | [] => false)
     | [] => false)

/-- Token sequences of `_pragma_version_constraint`. -/
def VersionConstraintToks (w : List String) : Prop :=
  ∃ v, matchesVersion v = true ∧
    (w = [v] ∨ ∃ c, versionComparators.contains c = true ∧ w = [c, v])

/-- Token sequences derived by `repeat(rule)`: a concatenation of sequences
of the rule's language. -/
inductive RepeatJoin (L : List String → Prop) : List String → Prop
  | nil : RepeatJoin L []
  | cons (w rest : List String) : L w → RepeatJoin L rest → RepeatJoin L (w ++ rest)

/-- Token sequences of `pragma_directive`. -/
def PragmaDirectiveToks (w : List String) : Prop :=
  ∃ cs, RepeatJoin VersionConstraintToks cs ∧
    w = "pragma" :: "solidity" :: cs ++ [";"]

/-- Claim C10: every pragma directive starts with the two tokens
`pragma` `solidity` — an empty constraint list is allowed, so
`pragma solidity ;` is accepted (as is `pragma solidity ^0.7.0 ;`),
while `pragma experimental ABIEncoderV2 ;` is not a pragma directive. -/
theorem pragma_requires_solidity :
    PragmaDirectiveToks ["pragma", "solidity", ";"] ∧
    PragmaDirectiveToks ["pragma", "solidity", "^", "0.7.0", ";"] ∧
    ¬ PragmaDirectiveToks ["pragma", "experimental", "ABIEncoderV2", ";"] := by
  refine ⟨⟨[], RepeatJoin.nil, rfl⟩, ⟨["^", "0.7.0"], ?_, rfl⟩, ?_⟩
  · have h : VersionConstraintToks ["^", "0.7.0"] :=
      ⟨"0.7.0", by decide, Or.inr ⟨"^", by decide, rfl⟩⟩
    exact RepeatJoin.cons ["^", "0.7.0"] [] h RepeatJoin.nil
  · rintro ⟨cs, _, h⟩
    simp at h

/-! ## Number literals (C5)

`number_literal: seq(choice(decimal_number, hex_number),
optional(number_unit))`;
`decimal_number: seq(/\d+(.\d+)?/, optional(/[eE](-)?d+/))` — the dot of the
fractional group is unescaped (any character but newline) and the `d` of the
exponent group is the literal character `d` in the source;
`hex_number: seq('0x', optional(optionalDashSeparation(_hex_digit)))` with
`_hex_digit: /([a-fA-F0-9][a-fA-F0-9])/`, i.e. hex digits come in pairs and
`_` may separate consecutive pairs. -/

def isHexDigitChar (c : Char) : Bool :=
  isDigitChar c || ('a' ≤ c && c ≤ 'f') || ('A' ≤ c && c ≤ 'F')

/-- Whole-token match of /\d+(.\d+)?/ (unescaped dot). -/
def matchesMantissaCore (s : List Char) : Bool :=
  (digitSplits s).any fun r =>
    r.isEmpty ||
    (match r with
     | c :: t => isAnyDot c && (digitSplits t).any List.isEmpty
     | [] => false)

/-- Whole-token match of /[eE](-)?d+/ — `d` is a literal character. -/
def matchesExponentPart (r : List Char) : Bool :=
  match r with
  | c :: t =>
      (c = 'e' || c = 'E') &&
      (let t2 := match t with | '-' :: u => u | u => u
       !t2.isEmpty && t2.all (fun x => x = 'd'))
  | [] => false

def splitsOf (s : List Char) : List (List Char × List Char) :=
  (List.range (s.length + 1)).map fun i => (s.take i, s.drop i)

/-- The character strings matched by the `decimal_number` rule. -/
def matchesDecimalNumber (s : List Char) : Bool :=
  (splitsOf s).any fun p =>
    matchesMantissaCore p.1 && (p.2.isEmpty || matchesExponentPart p.2)

/-- optionalDashSeparation(_hex_digit): one hex-digit pair, then further
pairs each preceded by an optional `_`. -/
def hexPairsRun : List Char → Bool
  | a :: b :: t =>
      isHexDigitChar a && isHexDigitChar b &&
      (match t with
       | [] => true
       | '_' :: t2 => hexPairsRun t2
       | t2 => hexPairsRun t2)
  | _ => false

/-- The character strings matched by the `hex_number` rule. -/
def matchesHexNumber (s : List Char) : Bool :=
  match s with
  | '0' :: 'x' :: rest => rest.isEmpty || hexPairsRun rest
  | _ => false

/-- The `number_literal` rule: a decimal or hex mantissa token, optionally
followed by a unit token. -/
def numberLiteralOk (mantissa : String) (unit : Option String) : Bool :=
  (matchesDecimalNumber mantissa.toList || matchesHexNumber mantissa.toList) &&
  (match unit with
   | none => true
   | some u => numberUnits.contains u)

/-! ## Expression and type-name trees

One constructor per alternative of `_expression` / `primary_expression` /
`type_name` in grammar.js; the well-formedness predicate transcribes each
rule's side conditions and the serialisation each rule's token sequence. -/

/-- Operator rows of `binary_expression`, transcribed in source order with
the PREC value each row is given; every row is wrapped in `prec.left`. -/
def binaryOpRows : List (String × Int) :=
  [("&&", 3), ("||", 2), (">>", 6), (">>>", 6), ("<<", 6), ("&", 3), ("^", 2),
   ("|", 2), ("+", 5), ("-", 5), ("*", 6), ("/", 6), ("%", 6), ("**", 7),
   ("<", 4), ("<=", 4), ("==", 4), ("!=", 4), ("!==", 4), (">=", 4), (">", 4)]

/-- Operator rows of `unary_expression` (all `prec.left` in the source). -/
def unaryOps : List String := ["!", "~", "-", "+", "delete"]

def augAssignOps : List String :=
  ["+=", "-=", "*=", "/=", "%=", "^=", "&=", "|=", ">>=", ">>>=", "<<="]

def updateOps : List String := ["++", "--"]

/-- `_storage_location`. -/
def storageLocations : List String := ["memory", "storage", "calldata"]

mutual
inductive Expr where
  | ident (s : String)
  | primT (s : String)
  | primAddressPayable
  | userT (parts : List String)
  | boolLit (b : Bool)
  | numberLit (mantissa : String) (unit : Option String)
  | stringLit (pieces : List String)
  | bin (op : String) (l r : Expr)
  | un (op : String) (arg : Expr)
  | updPre (op : String) (arg : Expr)
  | updPost (arg : Expr) (op : String)
  | ternary (c t f : Expr)
  | paren (e : Expr)
  | tuple (es : List Expr)
  | inlineArray (es : List Expr)
  | member (obj : Expr) (prop : String)
  | arrayAccess (base idx : Expr)
  | sliceAccess (base lo hi : Expr)
  | assign (l r : Expr)
  | augAssign (l : Expr) (op : String) (r : Expr)
  | callE (fn : String) (args : List CallArg)
  | payableConv (args : List CallArg)
  | metaType (t : TypeName)
  | newE (t : TypeName)
  | typeCast (t : TypeName) (e : Expr)
  | structE (base : Expr) (fields : List (String × Expr))
  deriving BEq
inductive CallArg where
  | pos (e : Expr)
  | named (fields : List (String × Expr))
  deriving BEq
inductive TypeName where
  | prim (s : String)
  | addressPayable
  | userDefined (parts : List String)
  | mapping (k v : TypeName)
  | arrayT (base : TypeName) (size : Option Expr)
  | functionT (params : List ParamD) (rets : Option (List NamelessParamD))
  deriving BEq
inductive ParamD where
  | mk (t : TypeName) (loc : Option String) (name : Option String)
  deriving BEq
inductive NamelessParamD where
  | mk (t : TypeName) (loc : Option String)
  deriving BEq
end

/-- The alternatives of `_lhs_expression`: member access, tuple, array
access, identifier. -/
def isLhsExprB : Expr → Bool
  | .member _ _ => true
  | .tuple _ => true
  | .arrayAccess _ _ => true
  | .ident _ => true
  | _ => false

def isParenB : Expr → Bool
  | .paren _ => true
  | _ => false

/-- The alternatives of `_mapping_key`: `_primitive_type` or
`_user_defined_type`. -/
def isMappingKeyShape : TypeName → Bool
  | .prim _ => true
  | .addressPayable => true
  | .userDefined _ => true
  | _ => false

/-- Primitive-type shapes allowed as the head of `type_cast_expression`. -/
def isPrimShape : TypeName → Bool
  | .prim _ => true
  | .addressPayable => true
  | _ => false

/-- Shape of a `string` token (either quote style, delimiters included). -/
def isStringTokShape (s : String) : Bool :=
  match s.toList with
  | '"' :: (t : List Char) => t.getLast? = some '"' && t.length ≥ 1
  | '\'' :: (t : List Char) => t.getLast? = some '\'' && t.length ≥ 1
  | _ => false

mutual

/-- Well-formedness of an expression tree: the side conditions of the
grammar rule each constructor transcribes. -/
def wfE : Expr → Bool
  | .ident s => isIdentTok s
  | .primT s => isPrimTok s
  | .primAddressPayable => true
  | .userT parts => !parts.isEmpty && parts.all isIdentTok
  | .boolLit _ => true
  | .numberLit m u => numberLiteralOk m u
  | .stringLit pieces => !pieces.isEmpty && pieces.all isStringTokShape
  | .bin op l r => binaryOpRows.any (fun row => row.1 = op) && wfE l && wfE r
  | .un op e => unaryOps.contains op && wfE e
  | .updPre op e => updateOps.contains op && wfE e
  | .updPost e op => updateOps.contains op && wfE e
  | .ternary c t f => wfE c && wfE t && wfE f
  | .paren e => wfE e
  | .tuple es => wfEList es
  | .inlineArray es => wfEList es
  | .member obj prop => wfE obj && isIdentTok prop
  | .arrayAccess b i => wfE b && wfE i
  | .sliceAccess b lo hi => wfE b && wfE lo && wfE hi
  | .assign l r => (isParenB l || isLhsExprB l) && wfE l && wfE r
  | .augAssign l op r => isLhsExprB l && augAssignOps.contains op && wfE l && wfE r
  | .callE fn args => isIdentTok fn && wfArgs args
  | .payableConv args => wfArgs args
  | .metaType t => wfT t
  | .newE t => wfT t
  | .typeCast t e => isPrimShape t && wfT t && wfE e
  | .structE base fields => wfE base && wfFields fields

def wfEList : List Expr → Bool
  | [] => true
  | e :: es => wfE e && wfEList es

def wfArg : CallArg → Bool
  | .pos e => wfE e
  | .named fields => wfFields fields

def wfArgs : List CallArg → Bool
  | [] => true
  | a :: rest => wfArg a && wfArgs rest

def wfFields : List (String × Expr) → Bool
  | [] => true
  | f :: fs => isIdentTok f.1 && wfE f.2 && wfFields fs

/-- Well-formedness of a type-name tree. -/
def wfT : TypeName → Bool
  | .prim s => isPrimTok s
  | .addressPayable => true
  | .userDefined parts => !parts.isEmpty && parts.all isIdentTok
  | .mapping k v => isMappingKeyShape k && wfT k && wfT v
  | .arrayT base size =>
      wfT base && (match size with | none => true | some e => wfE e)
  | .functionT params rets =>
      wfParams params &&
      (match rets with
       | none => true
       | some l => !l.isEmpty && wfNamelessList l)

def wfParam : ParamD → Bool
  | .mk t loc name =>
      wfT t &&
      (match loc with | none => true | some s => storageLocations.contains s) &&
      (match name with | none => true | some s => isIdentTok s)

def wfParams : List ParamD → Bool
  | [] => true
  | p :: ps => wfParam p && wfParams ps

def wfNameless : NamelessParamD → Bool
  | .mk t loc =>
      wfT t &&
      (match loc with | none => true | some s => storageLocations.contains s)

def wfNamelessList : List NamelessParamD → Bool
  | [] => true
  | p :: ps => wfNameless p && wfNamelessList ps

end

def optTok : Option String → List String
  | none => []
  | some s => [s]

/-- `_user_defined_type`: identifiers separated by dots. -/
def dotJoin : List String → List String
  | [] => []
  | [p] => [p]
  | p :: ps => p :: "." :: dotJoin ps

mutual

/-- Token sequence of an expression tree, one equation per grammar rule. -/
def toksE : Expr → List String
  | .ident s => [s]
  | .primT s => [s]
  | .primAddressPayable => ["address", "payable"]
  | .userT parts => dotJoin parts
  | .boolLit b => [if b then "true" else "false"]
  | .numberLit m u => m :: optTok u
  | .stringLit pieces => pieces
  | .bin op l r => toksE l ++ op :: toksE r
  | .un op e => op :: toksE e
  | .updPre op e => op :: toksE e
  | .updPost e op => toksE e ++ [op]
  | .ternary c t f => toksE c ++ "?" :: toksE t ++ ":" :: toksE f
  | .paren e => "(" :: toksE e ++ [")"]
  | .tuple es => "(" :: commaJoinE es ++ [")"]
  | .inlineArray es => "[" :: commaJoinE es ++ ["]"]
  | .member obj prop => toksE obj ++ [".", prop]
  | .arrayAccess b i => toksE b ++ "[" :: toksE i ++ ["]"]
  | .sliceAccess b lo hi => toksE b ++ "[" :: toksE lo ++ ":" :: toksE hi ++ ["]"]
  | .assign l r => toksE l ++ "=" :: toksE r
  | .augAssign l op r => toksE l ++ op :: toksE r
  | .callE fn args => fn :: "(" :: commaJoinArgs args ++ [")"]
  | .payableConv args => "payable" :: "(" :: commaJoinArgs args ++ [")"]
  | .metaType t => "type" :: "(" :: toksT t ++ [")"]
  | .newE t => "new" :: toksT t
  | .typeCast t e => toksT t ++ "(" :: toksE e ++ [")"]
  | .structE base fields => toksE base ++ "\x7b" :: commaJoinFields fields ++ ["\x7d"]

def commaJoinE : List Expr → List String
  | [] => []
  | [e] => toksE e
  | e :: es => toksE e ++ "," :: commaJoinE es

def toksArg : CallArg → List String
  | .pos e => toksE e
  | .named fields => "\x7b" :: commaJoinFields fields ++ ["\x7d"]

def commaJoinArgs : List CallArg → List String
  | [] => []
  | [a] => toksArg a
  | a :: rest => toksArg a ++ "," :: commaJoinArgs rest

def commaJoinFields : List (String × Expr) → List String
  | [] => []
  | [f] => f.1 :: ":" :: toksE f.2
  | f :: fs => f.1 :: ":" :: toksE f.2 ++ "," :: commaJoinFields fs

/-- Token sequence of a type-name tree. -/
def toksT : TypeName → List String
  | .prim s => [s]
  | .addressPayable => ["address", "payable"]
  | .userDefined parts => dotJoin parts
  | .mapping k v => "mapping" :: "(" :: toksT k ++ "=>" :: toksT v ++ [")"]
  | .arrayT base size =>
      toksT base ++ "[" ::
        (match size with | none => [] | some e => toksE e) ++ ["]"]
  | .functionT params rets =>
      "function" :: "(" :: commaJoinParams params ++ [")"] ++
        (match rets with
         | none => []
         | some l => "(" :: commaJoinNameless l ++ [")"])

def toksParam : ParamD → List String
  | .mk t loc name => toksT t ++ optTok loc ++ optTok name

def commaJoinParams : List ParamD → List String
  | [] => []
  | [p] => toksParam p
  | p :: ps => toksParam p ++ "," :: commaJoinParams ps

def toksNameless : NamelessParamD → List String
  | .mk t loc => toksT t ++ optTok loc

def commaJoinNameless : List NamelessParamD → List String
  | [] => []
  | [p] => toksNameless p
  | p :: ps => toksNameless p ++ "," :: commaJoinNameless ps

end

/-! ## Number-literal claims (C5) -/

/-- Claim C5 counterexample: `0x1_f` is not a `hex_number` token — the
`_hex_digit` token is a PAIR of hex digits, so `_` can only separate
two-digit groups and the single digit `1` cannot start one; `0x1_f` is not
a `decimal_number` either, so `0x1_f gwei` is not a number literal. -/
theorem number_literal_hex_underscore_counterexample :
    numberLiteralOk "0x1_f" (some "gwei") = false := by decide

/-- Claim C5, amended: number literals are a decimal mantissa (digits,
optional fractional part, optional exponent) or a hex mantissa of `0x`
followed by hex-digit PAIRS optionally separated by `_`, each optionally
followed by a unit keyword; `1 ether`, `0x1f gwei` and `0xff_ff` parse,
`0x1_f` does not. -/
theorem number_literal_forms :
    numberLiteralOk "1" (some "ether") = true ∧
    numberLiteralOk "0x1f" (some "gwei") = true ∧
    numberLiteralOk "0xff_ff" none = true ∧
    matchesDecimalNumber "1.5".toList = true ∧
    numberLiteralOk "0x1_f" (some "gwei") = false := by decide

/-! ## Assignment left-hand sides (C6)

`assignment_expression: prec.right(0, seq(choice(parenthesized_expression,
_lhs_expression), '=', _expression))`;
`augmented_assignment_expression: prec.right(0, seq(_lhs_expression, op,
_expression))` — the augmented form has no parenthesized alternative, and
the parenthesized alternative of the plain form wraps an arbitrary
expression. -/

/-- The left-hand-side family the spec sentence describes — one of the four
restricted forms, or a parenthesisation of one of them.  Stated from the
claim's words, for comparison with the grammar's actual rule. -/
def specLhsForm (e : Expr) : Bool :=
  isLhsExprB e ||
  (match e with
   | .paren i => isLhsExprB i
   | _ => false)

/-- Claim C6 counterexample: the grammar accepts `(a + b) = c` — an
assignment whose left-hand side is a parenthesisation of a binary
expression, not of one of the restricted forms — and rejects the
`augmented_assignment_expression` tree whose left-hand side is a
`parenthesized_expression`, so neither assignment form ranges over exactly
the family the claim states. -/
theorem assignment_lhs_restriction_counterexample :
    wfE (.assign (.paren (.bin "+" (.ident "a") (.ident "b"))) (.ident "c")) = true ∧
    specLhsForm (.paren (.bin "+" (.ident "a") (.ident "b"))) = false ∧
    wfE (.augAssign (.paren (.ident "a")) "+=" (.ident "b")) = false := by decide

/-- Claim C6, amended: a plain assignment's left-hand side is a member
access, tuple, array access, identifier, or a parenthesisation of an
ARBITRARY expression; an augmented assignment's left-hand side admits only
the four restricted forms with no parenthesized alternative — yet
`(a) += b` is still accepted, because `(a)` derives as a one-element
`tuple_expression`. -/
theorem augmented_assignment_lhs_forms :
    wfE (.augAssign (.tuple [.ident "a"]) "+=" (.ident "b")) = true ∧
    toksE (.augAssign (.tuple [.ident "a"]) "+=" (.ident "b")) =
      ["(", "a", ")", "+=", "b"] ∧
    wfE (.augAssign (.paren (.ident "a")) "+=" (.ident "b")) = false ∧
    wfE (.assign (.paren (.bin "+" (.ident "a") (.ident "b"))) (.ident "c")) = true ∧
    toksE (.assign (.paren (.bin "+" (.ident "a") (.ident "b"))) (.ident "c")) =
      ["(", "a", "+", "b", ")", "=", "c"] := by decide

/-! ## Mapping types (C8)

`_mapping: seq('mapping', '(', _mapping_key, '=>', type_name, ')')`;
`_mapping_key: choice(_primitive_type, _user_defined_type)`. -/

/-- Claim C8: a mapping's key type is restricted to a primitive or
user-defined type while the value type is an arbitrary type name:
`mapping(address => uint256)` parses with key `address` and value
`uint256`, a nested `mapping(address => mapping(uint => bool))` parses with
the inner mapping as the value type, and no well-formed type name at all
serialises to `mapping(mapping(uint => bool) => uint)`, whose key would be
a mapping. -/
theorem mapping_key_restricted :
    (wfT (.mapping (.prim "address") (.prim "uint256")) = true ∧
     toksT (.mapping (.prim "address") (.prim "uint256")) =
       ["mapping", "(", "address", "=>", "uint256", ")"]) ∧
    (wfT (.mapping (.prim "address") (.mapping (.prim "uint") (.prim "bool"))) = true ∧
     toksT (.mapping (.prim "address") (.mapping (.prim "uint") (.prim "bool"))) =
       ["mapping", "(", "address", "=>", "mapping", "(", "uint", "=>", "bool", ")", ")"]) ∧
    ∀ t : TypeName, wfT t = true →
      toksT t ≠ ["mapping", "(", "mapping", "(", "uint", "=>", "bool", ")", "=>", "uint", ")"] := by
  refine ⟨by decide, by decide, ?_⟩
  intro t hw h
  cases t with
  | prim s => simp [toksT] at h
  | addressPayable => simp [toksT] at h
  | userDefined parts =>
      rcases parts with _ | ⟨p, ps⟩
      · simp [wfT] at hw
      · rcases ps with _ | ⟨q, qs⟩ <;> simp [toksT, dotJoin] at h
  | mapping k v =>
      cases k with
      | prim s => simp [toksT] at h
      | addressPayable => simp [toksT] at h
      | userDefined parts =>
          rcases parts with _ | ⟨p, ps⟩
          · simp [wfT] at hw
          · rcases ps with _ | ⟨q, qs⟩ <;> simp [toksT, dotJoin] at h
      | mapping a b => simp [wfT, isMappingKeyShape] at hw
      | arrayT a b => simp [wfT, isMappingKeyShape] at hw
      | functionT a b => simp [wfT, isMappingKeyShape] at hw
  | arrayT base size =>
      rcases size with _ | e <;>
        · have h2 := congrArg List.reverse h
          simp [toksT] at h2
  | functionT params rets =>
      have h2 := congrArg List.head? h
      simp [toksT] at h2

/-- Claim C8 witness: the rejection clause of `mapping_key_restricted`
applied at the concrete type name `uint`. -/
theorem mapping_key_restricted_witness :
    toksT (.prim "uint") ≠
      ["mapping", "(", "mapping", "(", "uint", "=>", "bool", ")", "=>", "uint", ")"] :=
  mapping_key_restricted.2.2 (.prim "uint") (by decide)

/-! ## Variable declaration statements (C7)

`variable_declaration_statement: seq(choice(
  seq(variable_declaration, optional(seq('=', _expression))),
  seq(variable_declaration_tuple, '=', _expression)), ';')`;
`variable_declaration: seq(type_name, optional(storage_location),
identifier)`; `variable_declaration_tuple: seq('(',
commaSep(variable_declaration), ')')`. -/

structure VarDecl where
  type : TypeName
  loc : Option String
  name : String

def wfVarDecl (v : VarDecl) : Bool :=
  wfT v.type &&
  (match v.loc with | none => true | some s => storageLocations.contains s) &&
  isIdentTok v.name

def toksVarDecl (v : VarDecl) : List String :=
  toksT v.type ++ optTok v.loc ++ [v.name]

def commaJoinVarDecls : List VarDecl → List String
  | [] => []
  | [v] => toksVarDecl v
  | v :: vs => toksVarDecl v ++ "," :: commaJoinVarDecls vs

/-- One constructor per branch of the source's choice: a single declaration
takes an optional initializer, a declaration tuple takes a mandatory one. -/
inductive VDStmt where
  | single (v : VarDecl) (init : Option Expr)
  | tupleD (vs : List VarDecl) (init : Expr)

def wfVDStmt : VDStmt → Bool
  | .single v init =>
      wfVarDecl v && (match init with | none => true | some e => wfE e)
  | .tupleD vs init => vs.all wfVarDecl && wfE init

def toksVDStmt : VDStmt → List String
  | .single v init =>
      toksVarDecl v ++
        (match init with | none => [] | some e => "=" :: toksE e) ++ [";"]
  | .tupleD vs init =>
      "(" :: commaJoinVarDecls vs ++ ")" :: "=" :: toksE init ++ [";"]

/-- A well-formed type name never serialises to a token sequence starting
with an opening parenthesis (every alternative of `type_name` starts with a
keyword, a primitive token or an identifier). -/
theorem toksT_head_aux : ∀ (n : Nat) (t : TypeName), sizeOf t ≤ n → wfT t = true →
    ∀ r, toksT t ≠ "(" :: r := by
  intro n
  induction n with
  | zero =>
      intro t hs
      exfalso
      cases t <;> simp at hs
  | succ n ih =>
      intro t hs hw r h
      cases t with
      | prim s =>
          simp [toksT] at h
          obtain ⟨h1, -⟩ := h
          subst h1
          simp [wfT] at hw
          revert hw
          decide
      | addressPayable => simp [toksT] at h
      | userDefined parts =>
          rcases parts with _ | ⟨p, ps⟩
          · simp [wfT] at hw
          · have hp : p = "(" := by
              rcases ps with _ | ⟨q, qs⟩ <;> simp [toksT, dotJoin] at h <;> tauto
            have hi : isIdentTok p = true := by
              simp [wfT] at hw
              tauto
            subst hp
            revert hi
            decide
      | mapping k v => simp [toksT] at h
      | arrayT base size =>
          have hsb : sizeOf base ≤ n := by
            have : sizeOf base < sizeOf (TypeName.arrayT base size) := by
              simp
              omega
            omega
          rcases size with _ | e
          all_goals
            have hwb : wfT base = true := by
              simp [wfT] at hw
              tauto
          all_goals
            cases hb : toksT base with
            | nil =>
                simp only [toksT, hb] at h
                simp at h
            | cons hd tl =>
                simp only [toksT, hb] at h
                simp at h
                exact ih base hsb hwb _ (by rw [hb, h.1])
      | functionT params rets =>
          have h2 := congrArg List.head? h
          simp [toksT] at h2

/-- Claim C7: a `variable_declaration_tuple` always carries an initializer:
no well-formed variable declaration statement serialises to
`(uint a, uint b) ;` (a tuple without `= expression`), while the single
declaration `uint a ;` without an initializer and the tuple
`(uint a, uint b) = c ;` with one are both accepted. -/
theorem variable_declaration_tuple_initializer :
    (¬ ∃ s : VDStmt, wfVDStmt s = true ∧
        toksVDStmt s = ["(", "uint", "a", ",", "uint", "b", ")", ";"]) ∧
    (wfVDStmt (.single ⟨.prim "uint", none, "a"⟩ none) = true ∧
     toksVDStmt (.single ⟨.prim "uint", none, "a"⟩ none) = ["uint", "a", ";"]) ∧
    (wfVDStmt (.tupleD [⟨.prim "uint", none, "a"⟩, ⟨.prim "uint", none, "b"⟩]
        (.ident "c")) = true ∧
     toksVDStmt (.tupleD [⟨.prim "uint", none, "a"⟩, ⟨.prim "uint", none, "b"⟩]
        (.ident "c")) =
       ["(", "uint", "a", ",", "uint", "b", ")", "=", "c", ";"]) := by
  refine ⟨?_, by decide, by decide⟩
  rintro ⟨s, hwf, htoks⟩
  cases s with
  | tupleD vs init =>
      have hmem : "=" ∈ toksVDStmt (VDStmt.tupleD vs init) := by
        simp [toksVDStmt]
      rw [htoks] at hmem
      simp at hmem
  | single v init =>
      obtain ⟨t, loc, nm⟩ := v
      have hwt : wfT t = true := by
        simp [wfVDStmt, wfVarDecl] at hwf
        tauto
      cases hb : toksT t with
      | cons hd tl =>
          have hhd : hd = "(" := by
            simp only [toksVDStmt, toksVarDecl, hb] at htoks
            simp at htoks
            tauto
          exact toksT_head_aux (sizeOf t) t le_rfl hwt tl (by rw [hb, hhd])
      | nil =>
          simp only [toksVDStmt, toksVarDecl, hb] at htoks
          rcases loc with _ | ls
          · have hnm : nm = "(" := by
              simp [optTok] at htoks
              tauto
            have hid : isIdentTok nm = true := by
              simp [wfVDStmt, wfVarDecl] at hwf
              tauto
            subst hnm
            revert hid
            decide
          · have hls : ls = "(" := by
              simp [optTok] at htoks
              tauto
            have hloc : ls ∈ storageLocations := by
              simp [wfVDStmt, wfVarDecl] at hwf
              tauto
            subst hls
            revert hloc
            decide

/-! ## Struct and enum declarations (C4)

`struct_declaration: seq('struct', identifier, '{', repeat1(struct_member),
'}')`; `struct_member: seq(type_name, identifier, ';')`;
`enum_declaration: seq('enum', identifier, '{', commaSep(identifier), '}')`
— `repeat1` demands at least one member, `commaSep` allows zero values. -/

/-- Token sequences derived by `repeat1(rule)`. -/
inductive Repeat1Join (L : List String → Prop) : List String → Prop
  | one (w : List String) : L w → Repeat1Join L w
  | cons (w rest : List String) : L w → Repeat1Join L rest → Repeat1Join L (w ++ rest)

/-- Token sequences derived by the grammar's `commaSep1(rule)` helper:
`seq(rule, repeat(seq(',', rule)), optional(','))`. -/
inductive CommaSep1Toks (L : List String → Prop) : List String → Prop
  | last (w : List String) : L w → CommaSep1Toks L w
  | lastTrail (w : List String) : L w → CommaSep1Toks L (w ++ [","])
  | cons (w rest : List String) :
      L w → CommaSep1Toks L rest → CommaSep1Toks L (w ++ "," :: rest)

/-- Token sequences derived by `commaSep(rule) = optional(commaSep1(rule))`. -/
def CommaSepToks (L : List String → Prop) (w : List String) : Prop :=
  w = [] ∨ CommaSep1Toks L w

def IdentToks (w : List String) : Prop :=
  ∃ s, isIdentTok s = true ∧ w = [s]

/-- Token sequences of `struct_member`. -/
def StructMemberToks (w : List String) : Prop :=
  ∃ t nm, wfT t = true ∧ isIdentTok nm = true ∧ w = toksT t ++ [nm, ";"]

/-- Token sequences of `struct_declaration`. -/
def StructDeclToks (w : List String) : Prop :=
  ∃ nm ms, isIdentTok nm = true ∧ Repeat1Join StructMemberToks ms ∧
    w = "struct" :: nm :: "\x7b" :: ms ++ ["\x7d"]

/-- Token sequences of `enum_declaration`. -/
def EnumDeclToks (w : List String) : Prop :=
  ∃ nm vs, isIdentTok nm = true ∧ CommaSepToks IdentToks vs ∧
    w = "enum" :: nm :: "\x7b" :: vs ++ ["\x7d"]

theorem repeat1Join_ne_nil {L : List String → Prop}
    (hL : ∀ u, L u → u ≠ []) : ∀ v, Repeat1Join L v → v ≠ [] := by
  intro v hv
  induction hv with
  | one w hw => exact hL w hw
  | cons w rest hw _ _ =>
      intro hnil
      rcases List.append_eq_nil.mp hnil with ⟨h1, -⟩
      exact hL w hw h1

/-- Claim C4 counterexample: the grammar accepts an enum with zero values —
`enum E { }` is in the language of `enum_declaration` (its value list is
`commaSep`, not `commaSep1`). -/
theorem enum_empty_body_counterexample :
    EnumDeclToks ["enum", "E", "\x7b", "\x7d"] :=
  ⟨"E", [], by decide, Or.inl rfl, rfl⟩

/-- Claim C4, amended: a struct declaration must contain at least one member
(`struct S { }` is rejected, `struct S { uint a ; }` accepted), but an enum
declaration may have an empty value list (`enum E { }` and
`enum E { A , B }` are both accepted). -/
theorem struct_nonempty_enum_maybe_empty :
    (¬ StructDeclToks ["struct", "S", "\x7b", "\x7d"]) ∧
    StructDeclToks ["struct", "S", "\x7b", "uint", "a", ";", "\x7d"] ∧
    EnumDeclToks ["enum", "E", "\x7b", "\x7d"] ∧
    EnumDeclToks ["enum", "E", "\x7b", "A", ",", "B", "\x7d"] := by
  refine ⟨?_, ?_, ⟨"E", [], by decide, Or.inl rfl, rfl⟩, ?_⟩
  · rintro ⟨nm, ms, hnm, hms, hw⟩
    have hne : ms ≠ [] := by
      refine repeat1Join_ne_nil ?_ ms hms
      rintro u ⟨t, unm, -, -, rfl⟩ hnil
      simp at hnil
    simp at hw
    exact hne hw.2
  · refine ⟨"S", ["uint", "a", ";"], by decide, ?_, rfl⟩
    exact Repeat1Join.one _ ⟨.prim "uint", "a", by decide, by decide, rfl⟩
  · refine ⟨"E", ["A", ",", "B"], by decide, Or.inr ?_, rfl⟩
    exact CommaSep1Toks.cons ["A"] ["B"] ⟨"A", by decide, rfl⟩
      (CommaSep1Toks.last ["B"] ⟨"B", by decide, rfl⟩)

/-! ## Operator disambiguation (C1, C2)

`binary_expression` wraps every operator row in `prec.left(precedence, ...)`
with the PREC value transcribed in `binaryOpRows`;
`ternary_expression: prec.left(seq(_expression, '?', _expression, ':',
_expression))` — `prec.left` with no number, so the rule's precedence is
tree-sitter's default 0 (the PREC dict's TERNARY constant is defined but not
used by the rule).  Tree-sitter resolves a shift/reduce conflict between
two uses of the same operator tier by precedence first and then by the
declared associativity: left-associative reduces, right-associative shifts.
The precedence-climbing parser below implements exactly that policy over
the transcribed table, on the identifier-atom expressions the claims use. -/

inductive Assoc where
  | left
  | right
  deriving BEq

/-- Every row of `binary_expression` is wrapped in `prec.left`. -/
def binaryAssoc : Assoc := .left

/-- `prec.left` with no explicit number: precedence 0. -/
def ternaryPrec : Int := 0

/-- `ternary_expression` is wrapped in `prec.left`. -/
def ternaryAssoc : Assoc := .left

def lookupBinOp (t : String) : Option Int :=
  (binaryOpRows.find? (fun row => row.1 = t)).map (fun row => row.2)

/-- The least precedence allowed to the right of an operator: above the
operator for a left-associative rule (reduce at equal precedence), at the
operator for a right-associative one (shift at equal precedence). -/
def nextMin : Assoc → Int → Int
  | .left, p => p + 1
  | .right, p => p

mutual

def parseAtom : Nat → Int → List String → Option (Expr × List String)
  | 0, _, _ => none
  | fuel+1, minPrec, toks =>
    match toks with
    | t :: rest =>
        if isIdentTok t then parseOps fuel minPrec (.ident t) rest else none
    | [] => none

def parseOps : Nat → Int → Expr → List String → Option (Expr × List String)
  | 0, _, _, _ => none
  | fuel+1, minPrec, lhs, toks =>
    match toks with
    | [] => some (lhs, [])
    | t :: rest =>
      if t = "?" then
        if minPrec ≤ ternaryPrec then
          match parseAtom fuel 0 rest with
          | some (mid, ":" :: rest2) =>
            match parseAtom fuel (nextMin ternaryAssoc ternaryPrec) rest2 with
            | some (rhs, rest3) => parseOps fuel minPrec (.ternary lhs mid rhs) rest3
            | none => none
          | _ => none
        else some (lhs, toks)
      else
        match lookupBinOp t with
        | some p =>
          if minPrec ≤ p then
            match parseAtom fuel (nextMin binaryAssoc p) rest with
            | some (rhs, rest2) => parseOps fuel minPrec (.bin t lhs rhs) rest2
            | none => none
          else some (lhs, toks)
        | none => some (lhs, toks)

end

/-- Parse a whole token sequence as one expression. -/
def parseExprToks (toks : List String) : Option Expr :=
  match parseAtom (2 * toks.length + 2) 0 toks with
  | some (e, []) => some e
  | _ => none

/-- Claim C1 counterexample: `a ** b ** c` does NOT parse with `b ** c` as
the right operand of the outer `**` — the `**` row of `binary_expression`
is wrapped in `prec.left(PREC.EXP, ...)` like every other row, so at equal
precedence the engine reduces, i.e. associates to the left. -/
theorem exp_right_assoc_counterexample :
    parseExprToks ["a", "**", "b", "**", "c"] ≠
      some (.bin "**" (.ident "a") (.bin "**" (.ident "b") (.ident "c"))) := by
  have h : parseExprToks ["a", "**", "b", "**", "c"] =
      some (.bin "**" (.bin "**" (.ident "a") (.ident "b")) (.ident "c")) := rfl
  rw [h]
  intro he
  injection he with he2
  injection he2 with hop hl hr
  injection hl

/-- Claim C1, amended: exponentiation chains parse left-associatively —
`a ** b ** c` parses as `(a ** b) ** c`, because the source declares the
`**` row of `binary_expression` with `prec.left`. -/
theorem exp_left_assoc :
    parseExprToks ["a", "**", "b", "**", "c"] =
      some (.bin "**" (.bin "**" (.ident "a") (.ident "b")) (.ident "c")) := rfl

/-- Claim C2: under the grammar as written, `a ? b : c ? d : e` parses
LEFT-leaning — the second ternary becomes the CONDITION of the outer node,
`(a ? b : c) ? d : e` — because `ternary_expression` is declared
`prec.left` (the PREC.TERNARY constant defined for it is never used).
Solidity's conditional operator is right-associative, which is what the
spec records, so the grammar's associativity annotation is a slip in the
code. -/
theorem ternary_parses_left_leaning :
    parseExprToks ["a", "?", "b", ":", "c", "?", "d", ":", "e"] =
      some (.ternary (.ternary (.ident "a") (.ident "b") (.ident "c"))
        (.ident "d") (.ident "e")) := rfl

/-! ## Statements and catch clauses (C3)

The `_statement` language, with each alternative's rule transcribed; blocks
are `'{' repeat(_statement) '}'`.
`try_statement: seq('try', _expression, optional(seq('returns',
_parameter_list)), block_statement, repeat1(catch_clause))`;
`catch_clause: seq('catch', optional(seq(optional(identifier),
_parameter_list)), block_statement)` — an error NAME can only appear
together with a parameter list. -/

def ParamToks (w : List String) : Prop :=
  ∃ p : ParamD, wfParam p = true ∧ w = toksParam p

def ParameterListToks (w : List String) : Prop :=
  ∃ inner, CommaSepToks ParamToks inner ∧ w = "(" :: inner ++ [")"]

def ExprStmtToks (w : List String) : Prop :=
  ∃ e, wfE e = true ∧ w = toksE e ++ [";"]

def VDStmtToks (w : List String) : Prop :=
  ∃ s, wfVDStmt s = true ∧ w = toksVDStmt s

def CallArgsToks (w : List String) : Prop :=
  ∃ args, wfArgs args = true ∧ w = "(" :: commaJoinArgs args ++ [")"]

def ForInitToks (w : List String) : Prop :=
  VDStmtToks w ∨ ExprStmtToks w ∨ w = [";"]

def ForCondToks (w : List String) : Prop :=
  ExprStmtToks w ∨ w = [";"]

def ForUpdToks (w : List String) : Prop :=
  w = [] ∨ ∃ e, wfE e = true ∧ w = toksE e

def TryRetToks (w : List String) : Prop :=
  w = [] ∨ ∃ pl, ParameterListToks pl ∧ w = "returns" :: pl

mutual

inductive StmtTL : List String → Prop
  | block (inner : List String) :
      StmtSeqTL inner → StmtTL ("\x7b" :: inner ++ ["\x7d"])
  | exprStmt (e : Expr) : wfE e = true → StmtTL (toksE e ++ [";"])
  | varDecl (s : VDStmt) : wfVDStmt s = true → StmtTL (toksVDStmt s)
  | ifNoElse (c : Expr) (body : List String) :
      wfE c = true → StmtTL body → StmtTL ("if" :: "(" :: toksE c ++ ")" :: body)
  | ifElse (c : Expr) (body alt : List String) :
      wfE c = true → StmtTL body → StmtTL alt →
      StmtTL ("if" :: "(" :: toksE c ++ ")" :: body ++ "else" :: alt)
  | forS (ini cond upd body : List String) :
      ForInitToks ini → ForCondToks cond → ForUpdToks upd → StmtTL body →
      StmtTL ("for" :: "(" :: ini ++ cond ++ upd ++ ")" :: body)
  | whileS (c : Expr) (body : List String) :
      wfE c = true → StmtTL body →
      StmtTL ("while" :: "(" :: toksE c ++ ")" :: body)
  | doWhileS (body : List String) (c : Expr) :
      StmtTL body → wfE c = true →
      StmtTL ("do" :: body ++ "while" :: "(" :: toksE c ++ [")"])
  | continueS : StmtTL ["continue", ";"]
  | breakS : StmtTL ["break", ";"]
  | tryS (e : Expr) (ret body catches : List String) :
      wfE e = true → TryRetToks ret → StmtSeqTL body → CatchSeq1TL catches →
      StmtTL ("try" :: toksE e ++ ret ++ "\x7b" :: body ++ "\x7d" :: catches)
  | returnNone : StmtTL ["return", ";"]
  | returnSome (e : Expr) : wfE e = true → StmtTL ("return" :: toksE e ++ [";"])
  | emitS (e : Expr) (args : List String) :
      wfE e = true → CallArgsToks args →
      StmtTL ("emit" :: toksE e ++ args ++ [";"])

inductive StmtSeqTL : List String → Prop
  | nil : StmtSeqTL []
  | cons (w rest : List String) : StmtTL w → StmtSeqTL rest → StmtSeqTL (w ++ rest)

inductive CatchTL : List String → Prop
  | bare (inner : List String) :
      StmtSeqTL inner → CatchTL ("catch" :: "\x7b" :: inner ++ ["\x7d"])
  | params (pl inner : List String) :
      ParameterListToks pl → StmtSeqTL inner →
      CatchTL ("catch" :: pl ++ "\x7b" :: inner ++ ["\x7d"])
  | namedParams (nm : String) (pl inner : List String) :
      isIdentTok nm = true → ParameterListToks pl → StmtSeqTL inner →
      CatchTL ("catch" :: nm :: pl ++ "\x7b" :: inner ++ ["\x7d"])

inductive CatchSeq1TL : List String → Prop
  | one (w : List String) : CatchTL w → CatchSeq1TL w
  | cons (w rest : List String) :
      CatchTL w → CatchSeq1TL rest → CatchSeq1TL (w ++ rest)

end


/-- Claim C3 counterexample: `catch Err { }` — a catch clause that names an
error but takes no parameter list — is not in the `catch_clause` language:
the optional group is `seq(optional(identifier), _parameter_list)`, so the
identifier cannot appear without the parameter list. -/
theorem catch_named_without_params_counterexample :
    ¬ CatchTL ["catch", "Err", "\x7b", "\x7d"] := by
  have aux : ∀ w, CatchTL w → w ≠ ["catch", "Err", "\x7b", "\x7d"] := by
    intro w hw
    cases hw with
    | bare inner h1 => intro he; simp at he
    | params pl inner hpl h2 =>
        obtain ⟨pinner, -, rfl⟩ := hpl
        intro he; simp at he
    | namedParams nm pl inner hnm hpl h2 =>
        obtain ⟨pinner, -, rfl⟩ := hpl
        intro he; simp at he
  exact fun h => aux _ h rfl

/-- Claim C3, amended: a catch clause optionally takes a parameter list and
may name an error only together with one: bare `catch { }`,
`catch ( ) { }` and `catch Err ( ) { }` are accepted (and compose into a
try statement), while `catch Err { }` is rejected. -/
theorem catch_clause_forms :
    CatchTL ["catch", "\x7b", "\x7d"] ∧
    CatchTL ["catch", "(", ")", "\x7b", "\x7d"] ∧
    CatchTL ["catch", "Err", "(", ")", "\x7b", "\x7d"] ∧
    (¬ CatchTL ["catch", "Err", "\x7b", "\x7d"]) ∧
    StmtTL ["try", "f", "(", ")", "\x7b", "\x7d", "catch", "\x7b", "\x7d"] := by
  have hpl : ParameterListToks ["(", ")"] := ⟨[], Or.inl rfl, rfl⟩
  refine ⟨CatchTL.bare [] StmtSeqTL.nil,
    CatchTL.params ["(", ")"] [] hpl StmtSeqTL.nil,
    CatchTL.namedParams "Err" ["(", ")"] [] (by decide) hpl StmtSeqTL.nil,
    ?_, ?_⟩
  · have aux : ∀ w, CatchTL w → w ≠ ["catch", "Err", "\x7b", "\x7d"] := by
      intro w hw
      cases hw with
      | bare inner h1 => intro he; simp at he
      | params pl inner hpl2 h2 =>
          obtain ⟨pinner, -, rfl⟩ := hpl2
          intro he; simp at he
      | namedParams nm pl inner hnm hpl2 h2 =>
          obtain ⟨pinner, -, rfl⟩ := hpl2
          intro he; simp at he
    exact fun h => aux _ h rfl
  · exact StmtTL.tryS (.callE "f" []) [] [] ["catch", "\x7b", "\x7d"]
      (by decide) (Or.inl rfl) StmtSeqTL.nil
      (CatchSeq1TL.one _ (CatchTL.bare [] StmtSeqTL.nil))

/-! ## Extras: comments and whitespace (C9)

`extras: [$.comment, /[\s\uFEFF\u2060\u200B\u00A0]/]`;
`comment: token(prec(1, choice(seq('//', /.*/), seq('/*', /.*/, '*/'))))`.
In a tree-sitter regex `.` matches any character except a newline, so the
body of either comment form lies on one line.  The lexer is maximal-munch:
after `/*` it consumes through the LAST `*/` before the next newline.
`skipExtras` below is that lexer's extras-skipping loop; `isCommentTok` is
the comment token language itself. -/

/-- The whitespace-extras class /[\s\uFEFF\u2060\u200B\u00A0]/: the members
of JavaScript's \s that occur in this development, plus the four listed
code points. -/
def isExtraWS (c : Char) : Bool :=
  c = ' ' || c = '\t' || c = '\n' || c = '\r' || c = '\x0b' || c = '\x0c' ||
  c = '\uFEFF' || c = '\u2060' || c = '\u200B' || c = '\u00A0'

/-- The comment token language: `//` followed by a newline-free body, or
`/*` body `*/` with a newline-free body. -/
def isCommentTok (s : List Char) : Bool :=
  match s with
  | '/' :: '/' :: body => body.all isAnyDot
  | '/' :: '*' :: rest =>
      (match rest.reverse with
       | '/' :: '*' :: revBody => revBody.all isAnyDot
       | _ => false)
  | _ => false

/-- Position after the LAST `*/` before the next newline, if any — the
maximal-munch match of the block-comment tail: the regex body /.*/ then the closing delimiter. -/
def closeBlock : List Char → Option (List Char)
  | [] => none
  | [_] => none
  | c1 :: c2 :: t =>
    if c1 = '\n' then none
    else if c1 = '*' && c2 = '/' then
      (match closeBlock t with
       | some r => some r
       | none => some t)
    else closeBlock (c2 :: t)

/-- No `*/` pair occurs inside the list. -/
def noClose : List Char → Bool
  | [] => true
  | [_] => true
  | c1 :: c2 :: t => !(c1 = '*' && c2 = '/') && noClose (c2 :: t)

/-- One pass of the lexer's extras-skipping loop, fuelled by the input
length: skip a whitespace extra, a `//` comment (to the end of the line),
or a `/*` comment (through the last `*/` on the line); stop at anything
else — in particular at a `/*` with no `*/` before the next newline,
which is not a comment token. -/
def skipExtrasF : Nat → List Char → List Char
  | 0, s => s
  | _ + 1, [] => []
  | fuel + 1, c :: t =>
    if isExtraWS c then skipExtrasF fuel t
    else if c = '/' then
      (match t with
       | [] => [c]
       | c2 :: t2 =>
         if c2 = '/' then skipExtrasF fuel (t2.dropWhile isAnyDot)
         else if c2 = '*' then
           (match closeBlock t2 with
            | some r => skipExtrasF fuel r
            | none => c :: t)
         else c :: t)
    else c :: t

def skipExtras (s : List Char) : List Char := skipExtrasF s.length s

/-- A run of extras that the skipper consumes in place: whitespace
characters, newline-terminated line comments, and single-line block
comments, with no stray `*/` inside any comment body. -/
inductive InsertRun : List Char → Prop
  | nil : InsertRun []
  | ws (c : Char) (t : List Char) :
      isExtraWS c = true → InsertRun t → InsertRun (c :: t)
  | lineComment (body t : List Char) :
      body.all isAnyDot = true → noClose body = true → InsertRun t →
      InsertRun ('/' :: '/' :: body ++ '\n' :: t)
  | blockComment (body t : List Char) :
      body.all isAnyDot = true → noClose body = true → InsertRun t →
      InsertRun ('/' :: '*' :: body ++ '*' :: '/' :: t)



theorem closeBlock_length_le : ∀ l r, closeBlock l = some r → r.length ≤ l.length := by
  intro l
  induction l using closeBlock.induct with
  | case1 => intro r h; simp [closeBlock] at h
  | case2 c => intro r h; simp [closeBlock] at h
  | case3 c2 t => intro r h; simp [closeBlock] at h
  | case4 c1 c2 t h1 h2 r0 hr0 ih =>
      intro r h
      simp only [closeBlock, if_neg h1, if_pos h2, hr0] at h
      cases h
      have := ih r0 hr0
      simp
      omega
  | case5 c1 c2 t h1 h2 hr0 ih =>
      intro r h
      simp only [closeBlock, if_neg h1, if_pos h2, hr0] at h
      cases h
      simp
      omega
  | case6 c1 c2 t h1 h2 ih =>
      intro r h
      simp only [closeBlock, if_neg h1, if_neg h2] at h
      have := ih r h
      simp at this ⊢
      omega

theorem length_dropWhile_le (p : Char → Bool) (l : List Char) :
    (l.dropWhile p).length ≤ l.length := by
  induction l with
  | nil => simp [List.dropWhile]
  | cons c t ihh =>
      by_cases h : p c = true
      · simp [List.dropWhile, h]
        omega
      · simp [List.dropWhile, h]

theorem skipExtrasF_stable : ∀ f g s, s.length ≤ f → s.length ≤ g →
    skipExtrasF f s = skipExtrasF g s := by
  intro f
  induction f with
  | zero =>
      intro g s hf hg
      have : s = [] := List.length_eq_zero.mp (Nat.le_zero.mp hf)
      subst this
      cases g <;> rfl
  | succ f ih =>
      intro g s hf hg
      cases s with
      | nil => cases g <;> rfl
      | cons c t =>
          cases g with
          | zero => simp at hg
          | succ g =>
              simp only [skipExtrasF]
              simp only [List.length_cons] at hf hg
              by_cases hws : isExtraWS c = true
              · simp only [hws, if_pos]
                exact ih g t (by omega) (by omega)
              · simp only [Bool.not_eq_true] at hws
                simp only [hws, Bool.false_eq_true, if_false]
                by_cases hsl : c = '/'
                · simp only [hsl, if_pos]
                  cases t with
                  | nil => rfl
                  | cons c2 t2 =>
                      simp only [List.length_cons] at hf hg
                      by_cases h2 : c2 = '/'
                      · simp only [h2, if_pos]
                        have hd : (t2.dropWhile isAnyDot).length ≤ t2.length :=
                          length_dropWhile_le _ _
                        exact ih g _ (by omega) (by omega)
                      · by_cases h3 : c2 = '*'
                        · simp only [h2, h3, if_neg, if_pos]
                          cases hcb : closeBlock t2 with
                          | none => simp [h2]
                          | some r =>
                              have := closeBlock_length_le t2 r hcb
                              simp only [hcb, h2]
                              simp
                              exact ih g r (by omega) (by omega)
                        · simp [h2, h3]
                · simp [hsl]


theorem skipExtras_eq_F (f : Nat) (s : List Char) (h : s.length ≤ f) :
    skipExtrasF f s = skipExtras s :=
  skipExtrasF_stable f s.length s h le_rfl

theorem extraWS_ne_star (c : Char) (h : isExtraWS c = true) : ¬ c = '*' := by
  intro hc
  subst hc
  revert h
  decide

theorem dropWhile_all_append (p : Char → Bool) (a b : List Char)
    (h : a.all p = true) : (a ++ b).dropWhile p = b.dropWhile p := by
  induction a with
  | nil => rfl
  | cons c t ihh =>
      simp only [List.all_cons, Bool.and_eq_true] at h
      simp [List.dropWhile_cons, h.1, ihh h.2]

theorem skipExtrasF_ws (f : Nat) (c : Char) (t : List Char) (h : isExtraWS c = true) :
    skipExtrasF (f + 1) (c :: t) = skipExtrasF f t := by
  simp [skipExtrasF, h]

theorem skipExtrasF_line (f : Nat) (t2 : List Char) :
    skipExtrasF (f + 1) ('/' :: '/' :: t2) = skipExtrasF f (t2.dropWhile isAnyDot) := by
  simp [skipExtrasF, show isExtraWS '/' = false from by decide]

theorem skipExtrasF_block (f : Nat) (t2 r : List Char) (h : closeBlock t2 = some r) :
    skipExtrasF (f + 1) ('/' :: '*' :: t2) = skipExtrasF f r := by
  simp [skipExtrasF, show isExtraWS '/' = false from by decide, h]

theorem skipExtras_ws_step (c : Char) (x : List Char) (h : isExtraWS c = true) :
    skipExtras (c :: x) = skipExtras x := by
  show skipExtrasF (c :: x).length (c :: x) = skipExtras x
  rw [List.length_cons, skipExtrasF_ws _ _ _ h]
  exact skipExtras_eq_F _ _ le_rfl

theorem skipExtras_line_step (body x : List Char)
    (hnl : body.all isAnyDot = true) :
    skipExtras ('/' :: '/' :: (body ++ '\n' :: x)) = skipExtras x := by
  show skipExtrasF ('/' :: '/' :: (body ++ '\n' :: x)).length _ = skipExtras x
  simp only [List.length_cons]
  rw [skipExtrasF_line]
  rw [dropWhile_all_append isAnyDot body _ hnl]
  rw [show ('\n' :: x).dropWhile isAnyDot = '\n' :: x by
    simp [List.dropWhile_cons, isAnyDot]]
  rw [skipExtras_eq_F _ _ (by simp; omega)]
  exact skipExtras_ws_step '\n' x (by decide)

theorem skipExtras_block_step (t2 r : List Char) (h : closeBlock t2 = some r) :
    skipExtras ('/' :: '*' :: t2) = skipExtras r := by
  show skipExtrasF ('/' :: '*' :: t2).length _ = skipExtras r
  simp only [List.length_cons]
  rw [skipExtrasF_block _ _ _ h]
  exact skipExtras_eq_F _ _ (by have := closeBlock_length_le t2 r h; omega)


theorem closeBlock_cons_skip (c : Char) (X : List Char)
    (h1 : ¬ c = '\n') (h2 : ¬ c = '*') :
    closeBlock (c :: X) = closeBlock X := by
  cases X with
  | nil => simp [closeBlock]
  | cons d X2 =>
      simp only [closeBlock]
      rw [if_neg h1, if_neg (by simp [h2])]

theorem noClose_cons_ne_star (c : Char) (l : List Char) (h : ¬ c = '*') :
    noClose (c :: l) = noClose l := by
  cases l with
  | nil => simp [noClose]
  | cons d l2 => simp [noClose, h]

theorem closeBlock_through : ∀ (n : Nat) (p u : List Char), p.length ≤ n →
    p.all isAnyDot = true →
    closeBlock (p ++ '*' :: '/' :: u) = some ((closeBlock u).getD u) := by
  intro n
  induction n with
  | zero =>
      intro p u hl _
      have hp : p = [] := List.length_eq_zero.mp (Nat.le_zero.mp hl)
      subst hp
      show closeBlock ('*' :: '/' :: u) = _
      simp only [closeBlock]
      rw [if_neg (by decide), if_pos (by decide)]
      cases closeBlock u <;> simp
  | succ n ih =>
      intro p u hl hnl
      cases p with
      | nil => exact ih [] u (Nat.zero_le n) rfl
      | cons c p2 =>
          simp only [List.all_cons, Bool.and_eq_true] at hnl
          have hcn : ¬ c = '\n' := by
            intro hc
            subst hc
            simp [isAnyDot] at hnl
          simp only [List.length_cons] at hl
          cases p2 with
          | nil =>
              show closeBlock (c :: '*' :: '/' :: u) = _
              simp only [closeBlock]
              rw [if_neg hcn, if_neg (by simp)]
              exact ih [] u (Nat.zero_le n) rfl
          | cons c2 p3 =>
              simp only [List.all_cons, Bool.and_eq_true] at hnl
              simp only [List.length_cons] at hl
              by_cases hcc : c = '*' ∧ c2 = '/'
              · obtain ⟨rfl, rfl⟩ := hcc
                show closeBlock ('*' :: '/' :: (p3 ++ '*' :: '/' :: u)) = _
                simp only [closeBlock]
                rw [if_neg (by decide), if_pos (by decide)]
                rw [ih p3 u (by omega) (by tauto)]
              · show closeBlock (c :: c2 :: (p3 ++ '*' :: '/' :: u)) = _
                simp only [closeBlock]
                rw [if_neg hcn, if_neg (by
                  simp only [Bool.and_eq_true, decide_eq_true_eq]
                  exact hcc)]
                exact ih (c2 :: p3) u (by simp; omega)
                  (by simp only [List.all_cons, Bool.and_eq_true]; tauto)

theorem closeBlock_line_none : ∀ (n : Nat) (q X : List Char), q.length ≤ n →
    q.all isAnyDot = true → noClose q = true →
    closeBlock (q ++ '\n' :: X) = none := by
  intro n
  induction n with
  | zero =>
      intro q X hl _ _
      have hq : q = [] := List.length_eq_zero.mp (Nat.le_zero.mp hl)
      subst hq
      cases X <;> simp [closeBlock]
  | succ n ih =>
      intro q X hl hnl hnc
      cases q with
      | nil => cases X <;> simp [closeBlock]
      | cons c q2 =>
          simp only [List.all_cons, Bool.and_eq_true] at hnl
          have hcn : ¬ c = '\n' := by
            intro hc
            subst hc
            simp [isAnyDot] at hnl
          simp only [List.length_cons] at hl
          cases q2 with
          | nil =>
              show closeBlock (c :: '\n' :: X) = none
              simp only [closeBlock]
              rw [if_neg hcn, if_neg (by simp)]
              exact ih [] X (Nat.zero_le n) rfl rfl
          | cons c2 q3 =>
              have hnc2 : (!(c = '*' && c2 = '/')) = true ∧ noClose (c2 :: q3) = true := by
                simpa [noClose, Bool.and_eq_true] using hnc
              show closeBlock (c :: c2 :: (q3 ++ '\n' :: X)) = none
              simp only [closeBlock]
              rw [if_neg hcn, if_neg (by
                simp only [Bool.and_eq_true, decide_eq_true_eq]
                have h3 := hnc2.1
                simp at h3
                tauto)]
              exact ih (c2 :: q3) X (by simp at hl ⊢; omega) (by tauto) hnc2.2


theorem closeBlock_insertRun :
    ∀ (t : List Char), InsertRun t → ∀ rest, closeBlock rest = none →
    closeBlock (t ++ rest) = none ∨
      ∃ t2, InsertRun t2 ∧ t2.length < t.length ∧
        closeBlock (t ++ rest) = some (t2 ++ rest) := by
  intro t ht
  induction ht with
  | nil => intro rest hrest; exact Or.inl (by simpa using hrest)
  | ws c t hws hrun ih =>
      intro rest hrest
      by_cases hc : c = '\n'
      · subst hc
        left
        show closeBlock ('\n' :: (t ++ rest)) = none
        cases htr : t ++ rest <;> simp [closeBlock]
      · have hcs := extraWS_ne_star c hws
        have hstep : closeBlock ((c :: t) ++ rest) = closeBlock (t ++ rest) :=
          closeBlock_cons_skip c (t ++ rest) hc hcs
        rw [hstep]
        rcases ih rest hrest with h | ⟨t2, a, b, hsome⟩
        · exact Or.inl h
        · exact Or.inr ⟨t2, a, by simp; omega, hsome⟩
  | lineComment body t hnl hnc hrun ih =>
      intro rest hrest
      left
      have heq : ('/' :: '/' :: body ++ '\n' :: t) ++ rest =
          ('/' :: '/' :: body) ++ '\n' :: (t ++ rest) := by simp
      rw [heq]
      refine closeBlock_line_none (body.length + 2) ('/' :: '/' :: body)
        (t ++ rest) (by simp) (by simp [hnl]; decide) ?_
      rw [noClose_cons_ne_star _ _ (by decide), noClose_cons_ne_star _ _ (by decide)]
      exact hnc
  | blockComment body t hnl hnc hrun ih =>
      intro rest hrest
      right
      have heq : ('/' :: '*' :: body ++ '*' :: '/' :: t) ++ rest =
          ('/' :: '*' :: body) ++ '*' :: '/' :: (t ++ rest) := by simp
      have hthrough := closeBlock_through (body.length + 2) ('/' :: '*' :: body)
        (t ++ rest) (by simp) (by simp [hnl]; decide)
      rcases ih rest hrest with h | ⟨t2, a, b, hsome⟩
      · refine ⟨t, hrun, by simp; omega, ?_⟩
        rw [heq, hthrough, h]
        simp
      · refine ⟨t2, a, by simp; omega, ?_⟩
        rw [heq, hthrough, hsome]
        simp

theorem skipExtras_insert_aux : ∀ (n : Nat) (e : List Char), e.length ≤ n →
    InsertRun e → ∀ rest, closeBlock rest = none →
    skipExtras (e ++ rest) = skipExtras rest := by
  intro n
  induction n with
  | zero =>
      intro e hl he rest hrest
      have hz : e = [] := List.length_eq_zero.mp (Nat.le_zero.mp hl)
      subst hz
      rfl
  | succ n ih =>
      intro e hl he rest hrest
      cases he with
      | nil => rfl
      | ws c t hws hrun =>
          show skipExtras (c :: (t ++ rest)) = skipExtras rest
          rw [skipExtras_ws_step c _ hws]
          exact ih t (by simp at hl; omega) hrun rest hrest
      | lineComment body t hnl hnc hrun =>
          have heq : ('/' :: '/' :: body ++ '\n' :: t) ++ rest =
              '/' :: '/' :: (body ++ '\n' :: (t ++ rest)) := by simp
          rw [heq, skipExtras_line_step body _ hnl]
          exact ih t (by simp at hl; omega) hrun rest hrest
      | blockComment body t hnl hnc hrun =>
          have heq : ('/' :: '*' :: body ++ '*' :: '/' :: t) ++ rest =
              '/' :: '*' :: (body ++ '*' :: '/' :: (t ++ rest)) := by simp
          rw [heq]
          rw [skipExtras_block_step _ _
            (closeBlock_through body.length body (t ++ rest) le_rfl hnl)]
          rcases closeBlock_insertRun t hrun rest hrest with h | ⟨t2, a, b, hsome⟩
          · rw [h]
            simp only [Option.getD]
            exact ih t (by simp at hl; omega) hrun rest hrest
          · rw [hsome]
            simp only [Option.getD]
            exact ih t2 (by simp at hl; omega) a rest hrest


/-- Claim C9 counterexample: a block comment whose body spans two lines is
NOT a comment token — the comment rule's body regex /.*/ cannot match a
newline — so multi-line block comments are not extras: inserting
`/* a⏎b */` before a token changes what the lexer sees (it stops at the
unmatched `/*`). -/
theorem multiline_block_comment_counterexample :
    isCommentTok ("/* a".toList ++ '\n' :: "b */".toList) = false ∧
    skipExtras ("/* a".toList ++ '\n' :: "b */ x".toList) ≠ skipExtras "x".toList := by
  exact ⟨by decide, by decide⟩

/-- Claim C9, amended: line comments and SINGLE-LINE block comments and the
whitespace characters are extras: a run of them — each line comment
newline-terminated, no stray `*/` inside a comment body — inserted at a
point the lexer reaches is skipped without changing the lexing of the
remainder (provided the following text has no `*/` before its first
newline, which the maximal-munch block-comment token would otherwise
swallow); a block comment whose body spans lines is not a comment token at
all.  Extras are consumed by the skipper between tokens and so never
become tree nodes. -/
theorem extras_insertion_invariance :
    isCommentTok "// note".toList = true ∧
    isCommentTok "/* note */".toList = true ∧
    isCommentTok ("/* a".toList ++ '\n' :: "b */".toList) = false ∧
    ∀ e rest, InsertRun e → closeBlock rest = none →
      skipExtras (e ++ rest) = skipExtras rest := by
  refine ⟨by decide, by decide, by decide, ?_⟩
  intro e rest he hrest
  exact skipExtras_insert_aux e.length e le_rfl he rest hrest

/-- Claim C9 witness: the invariance clause at a concrete run — the block
comment `/* note */` followed by a space, inserted before `pragma`. -/
theorem extras_insertion_invariance_witness :
    skipExtras ("/* note */ ".toList ++ "pragma".toList) =
      skipExtras "pragma".toList := by
  have he : InsertRun "/* note */ ".toList :=
    InsertRun.blockComment " note ".toList [' '] (by decide) (by decide)
      (InsertRun.ws ' ' [] (by decide) InsertRun.nil)
  exact extras_insertion_invariance.2.2.2 _ _ he (by decide)

end Solidity
